import Mathlib

/-!
# Verification of the MTWM mixing-plan generator

Shallow embedding of the core algorithms of the MTWM repository:

* `core/algorithm/dfmm.py` — greedy factorization (`find_factors_for_sum`),
  DFMM forest construction (`build_dfmm_forest`) and P-value evaluation
  (`calculate_p_values_from_structure`);
* `core/model/problem.py` — candidate sharing-edge admissibility
  (`MTWMProblem._precompute_potential_sources`);
* `core/solver/engine.py` — the CP-SAT constraint encoder (`OrToolsSolver`),
  rendered as a decidable feasibility predicate over integer assignments;
* `core/or_tools_solver.py` — the legacy encoder, likewise.

All machine integers involved are non-negative and bounded, so the embedding
uses `Nat` throughout; CP-SAT integer variables with interval domains become
explicit bound conjuncts of the feasibility predicate.
-/

namespace MTWM

/-! ## Arithmetic kernel: `find_factors_for_sum` (core/algorithm/dfmm.py:7-20)

The Python loop scans `d` from `max_factor` down to `2` for the first divisor
of `n`; `largestDivisorInRange n d` is that inner `for`/`break` scan. -/

def largestDivisorInRange (n : Nat) (d : Nat) : Option Nat :=
  if d < 2 then none
  else if n % d = 0 then some d
  else largestDivisorInRange n (d - 1)
termination_by d
decreasing_by omega

theorem largestDivisorInRange_spec {n d k : Nat}
    (h : largestDivisorInRange n d = some k) :
    2 ≤ k ∧ k ≤ d ∧ n % k = 0 := by
  induction d using Nat.strong_induction_on with
  | _ d ih =>
    rw [largestDivisorInRange] at h
    by_cases h2 : d < 2
    · simp [h2] at h
    · by_cases h3 : n % d = 0
      · simp [h2, h3] at h
        subst h
        exact ⟨by omega, Nat.le_refl _, h3⟩
      · simp [h2, h3] at h
        have := ih (d - 1) (by omega) h
        omega

theorem largestDivisorInRange_none {n d : Nat}
    (h : largestDivisorInRange n d = none) :
    ∀ e, 2 ≤ e → e ≤ d → n % e ≠ 0 := by
  induction d using Nat.strong_induction_on with
  | _ d ih =>
    rw [largestDivisorInRange] at h
    by_cases h2 : d < 2
    · intro e he1 he2 _; omega
    · by_cases h3 : n % d = 0
      · simp [h2, h3] at h
      · simp [h2, h3] at h
        intro e he1 he2
        rcases Nat.lt_or_ge e d with hlt | hge
        · exact ih (d - 1) (by omega) h e he1 (by omega)
        · have : e = d := by omega
          subst this; exact h3

theorem largestDivisorInRange_isSome {n d e : Nat}
    (he1 : 2 ≤ e) (he2 : e ≤ d) (he3 : n % e = 0) :
    (largestDivisorInRange n d).isSome := by
  cases h : largestDivisorInRange n d with
  | some k => rfl
  | none => exact absurd he3 (largestDivisorInRange_none h e he1 he2)

/-- The `while n > 1` loop of `find_factors_for_sum`, accumulating the greedy
factors in the order the Python code appends them. -/
def factorLoop (maxFactor : Nat) (n : Nat) : Option (List Nat) :=
  if h1 : n ≤ 1 then some []
  else
    match h2 : largestDivisorInRange n maxFactor with
    | none => none
    | some d =>
      match factorLoop maxFactor (n / d) with
      | none => none
      | some rest => some (d :: rest)
termination_by n
decreasing_by
  have := largestDivisorInRange_spec h2
  exact Nat.div_lt_self (by omega) (by omega)

/-- `find_factors_for_sum(ratio_sum, max_factor)` from core/algorithm/dfmm.py:
greedy largest-first factorization, with the final
`sorted(factors, reverse=True)` rendered as an insertion sort by `≥`
(on `Nat` any two `≥`-sorted permutations of the same list are equal, so this
agrees with Python's sort). -/
def find_factors_for_sum (ratio_sum max_factor : Nat) : Option (List Nat) :=
  if ratio_sum ≤ 1 then some []
  else (factorLoop max_factor ratio_sum).map (List.insertionSort (· ≥ ·))

theorem factorLoop_some {maxFactor : Nat} {n : Nat} {fs : List Nat}
    (h1 : 1 ≤ n) (h2 : factorLoop maxFactor n = some fs) :
    fs.prod = n ∧ ∀ x ∈ fs, 2 ≤ x ∧ x ≤ maxFactor := by
  induction n using Nat.strong_induction_on generalizing fs with
  | _ n ih =>
    rw [factorLoop] at h2
    by_cases hle : n ≤ 1
    · have hn1 : n = 1 := by omega
      simp [hle] at h2
      subst h2; simp [hn1]
    · simp only [hle, dite_false] at h2
      split at h2
      · exact absurd h2 (by simp)
      · rename_i d hd
        obtain ⟨hd2, hdle, hdvd⟩ := largestDivisorInRange_spec hd
        have hdvd' : d ∣ n := Nat.dvd_of_mod_eq_zero hdvd
        split at h2
        · exact absurd h2 (by simp)
        · rename_i rest hr
          have hlt : n / d < n := Nat.div_lt_self (by omega) (by omega)
          have hpos : 1 ≤ n / d := by
            have : d ≤ n := Nat.le_of_dvd (by omega) hdvd'
            exact Nat.one_le_div_iff (by omega) |>.mpr this
          obtain ⟨hprod, hmem⟩ := ih (n / d) hlt hpos hr
          injection h2 with h2
          subst h2
          constructor
          · simp [hprod, Nat.mul_div_cancel' hdvd']
          · intro x hx
            rcases List.mem_cons.mp hx with h | h
            · subst h; exact ⟨hd2, hdle⟩
            · exact hmem x h

theorem factorLoop_none {maxFactor : Nat} {n : Nat}
    (h1 : 1 ≤ n) (h2 : factorLoop maxFactor n = none) :
    ∃ p, p.Prime ∧ p ∣ n ∧ maxFactor < p := by
  induction n using Nat.strong_induction_on with
  | _ n ih =>
    rw [factorLoop] at h2
    by_cases hle : n ≤ 1
    · simp [hle] at h2
    · simp only [hle, dite_false] at h2
      split at h2
      · rename_i hd
        have hpp : (Nat.minFac n).Prime := Nat.minFac_prime (by omega)
        have hdvd : Nat.minFac n ∣ n := Nat.minFac_dvd n
        refine ⟨Nat.minFac n, hpp, hdvd, ?_⟩
        by_contra hcon
        push_neg at hcon
        exact largestDivisorInRange_none hd (Nat.minFac n) hpp.two_le hcon
          (Nat.mod_eq_zero_of_dvd hdvd)
      · rename_i d hd
        obtain ⟨hd2, hdle, hdvd⟩ := largestDivisorInRange_spec hd
        have hdvd' : d ∣ n := Nat.dvd_of_mod_eq_zero hdvd
        split at h2
        · rename_i hr
          have hlt : n / d < n := Nat.div_lt_self (by omega) (by omega)
          have hpos : 1 ≤ n / d := by
            have : d ≤ n := Nat.le_of_dvd (by omega) hdvd'
            exact Nat.one_le_div_iff (by omega) |>.mpr this
          obtain ⟨p, hp, hpd, hpm⟩ := ih (n / d) hlt hpos hr
          exact ⟨p, hp, hpd.trans (Nat.div_dvd_of_dvd hdvd'), hpm⟩
        · exact absurd h2 (by simp)

theorem factorLoop_isSome {maxFactor n : Nat} (h1 : 1 ≤ n)
    (hnp : ∀ p, p.Prime → p ∣ n → p ≤ maxFactor) :
    ∃ fs, factorLoop maxFactor n = some fs := by
  cases h : factorLoop maxFactor n with
  | some fs => exact ⟨fs, rfl⟩
  | none =>
    obtain ⟨p, hp, hpd, hpm⟩ := factorLoop_none h1 h
    exact absurd (hnp p hp hpd) (by omega)

theorem no_list_of_big_prime {n maxFactor p : Nat} (hn : 2 ≤ n)
    (hp : p.Prime) (hpd : p ∣ n) (hgt : maxFactor < p) (l : List Nat)
    (hmem : ∀ x ∈ l, 0 < x ∧ x ≤ maxFactor) (hprod : l.prod = n) : False := by
  have : p ∣ l.prod := hprod ▸ hpd
  obtain ⟨x, hx, hpx⟩ := (hp.prime.dvd_prod_iff).mp this
  have hxe := hmem x hx
  have : p ≤ x := Nat.le_of_dvd hxe.1 hpx
  omega

/-- Claim C8: `find_factors_for_sum(n, max_factor)` returns, whenever a
decomposition exists, a non-increasing list of integers in `(1, max_factor]`
whose product is `n`; it returns `None` exactly when no such decomposition
exists, equivalently when `n` has a prime factor greater than `max_factor`
(core/algorithm/dfmm.py:7-20). -/
theorem find_factors_for_sum_spec (n maxFactor : Nat) (hn : 2 ≤ n)
    (hm : 2 ≤ maxFactor) :
    (∀ l, find_factors_for_sum n maxFactor = some l →
        List.Sorted (· ≥ ·) l ∧ (∀ x ∈ l, 1 < x ∧ x ≤ maxFactor) ∧
          l.prod = n) ∧
    (find_factors_for_sum n maxFactor = none ↔
        ¬ ∃ l, List.Sorted (· ≥ ·) l ∧ (∀ x ∈ l, 1 < x ∧ x ≤ maxFactor) ∧
          l.prod = n) ∧
    (find_factors_for_sum n maxFactor = none ↔
        ∃ p, p.Prime ∧ p ∣ n ∧ maxFactor < p) := by
  have hne : ¬ n ≤ 1 := by omega
  have hsome : ∀ l, find_factors_for_sum n maxFactor = some l →
      List.Sorted (· ≥ ·) l ∧ (∀ x ∈ l, 1 < x ∧ x ≤ maxFactor) ∧
        l.prod = n := by
    intro l hl
    unfold find_factors_for_sum at hl
    simp only [hne, if_false, Option.map_eq_some'] at hl
    obtain ⟨fs, hfs, hsort⟩ := hl
    obtain ⟨hprod, hmem⟩ := factorLoop_some (by omega) hfs
    have hperm : List.Perm (List.insertionSort (· ≥ ·) fs) fs :=
      List.perm_insertionSort (· ≥ ·) fs
    subst hsort
    refine ⟨List.sorted_insertionSort (· ≥ ·) fs, ?_, ?_⟩
    · intro x hx
      have := hmem x (hperm.mem_iff.mp hx)
      omega
    · rw [hperm.prod_eq, hprod]
  have hnone_prime : find_factors_for_sum n maxFactor = none ↔
      ∃ p, p.Prime ∧ p ∣ n ∧ maxFactor < p := by
    constructor
    · intro h
      unfold find_factors_for_sum at h
      simp only [hne, if_false, Option.map_eq_none'] at h
      exact factorLoop_none (by omega) h
    · intro ⟨p, hp, hpd, hgt⟩
      cases h : find_factors_for_sum n maxFactor with
      | none => rfl
      | some l =>
        obtain ⟨_, hmem, hprod⟩ := hsome l h
        exact absurd hprod
          (fun hpr => no_list_of_big_prime hn hp hpd hgt l
            (fun x hx => by have := hmem x hx; omega) hpr)
  refine ⟨hsome, ?_, hnone_prime⟩
  constructor
  · intro h ⟨l, hsort, hmem, hprod⟩
    obtain ⟨p, hp, hpd, hgt⟩ := hnone_prime.mp h
    exact no_list_of_big_prime hn hp hpd hgt l
      (fun x hx => by have := hmem x hx; omega) hprod
  · intro h
    cases hcase : find_factors_for_sum n maxFactor with
    | none => rfl
    | some l => exact absurd ⟨l, hsome l hcase⟩ h

/-- Witness for C8 at the concrete input `n = 12`, `max_factor = 5`: greedy
picks `4` then `3`, so the call succeeds and no prime factor of `12`
exceeds `5`. -/
theorem find_factors_for_sum_spec_witness :
    (find_factors_for_sum 12 5 = none ↔
        ∃ p, p.Prime ∧ p ∣ 12 ∧ 5 < p) :=
  (find_factors_for_sum_spec 12 5 (by decide) (by decide)).2.2

/-! ## DFMM forest builder (core/algorithm/dfmm.py:26-56)

A tree is the `tree_nodes` dictionary: an association list from node id
`(level, k)` to the node's ordered child list.  `build_dfmm_tree` processes
levels `L-1, L-2, …, 0`, mirroring the Python loop
`for l in range(num_levels - 1, -1, -1)`. -/

abbrev NodeId := Nat × Nat

abbrev Tree := List (NodeId × List NodeId)

structure BuildState where
  values : List Nat
  below : List NodeId
  tree : Tree

/-- The children assigned to parent `k` by the Python round-robin loop
(`parent_idx` cycles through `0, …, num_nodes-1`, so child `i` goes to
parent `i % num_nodes`, in increasing order of `i`). -/
def roundRobinChildren (below : List NodeId) (numNodes k : Nat) :
    List NodeId :=
  ((below.enum).filter (fun p => p.1 % numNodes == k)).map (·.2)

/-- One iteration of the Python level loop: computes remainders, quotients,
the node count `⌈total/f⌉` (as `(total + f - 1) / f`, which is
`math.ceil(total/factor)` for `f ≥ 1`), creates the level's nodes and
attaches the nodes from below round-robin. -/
def buildLevel (l f : Nat) (st : BuildState) : BuildState :=
  let rems := st.values.map (· % f)
  let quots := st.values.map (· / f)
  let total := rems.sum + st.below.length
  let numNodes := if 0 < total then (total + f - 1) / f else 0
  let ids := (List.range numNodes).map (fun k => (l, k))
  let newEntries := (List.range numNodes).map
    (fun k => ((l, k), roundRobinChildren st.below numNodes k))
  ⟨quots, ids, st.tree ++ newEntries⟩

def buildLevels : List (Nat × Nat) → BuildState → BuildState
  | [], st => st
  | lf :: rest, st => buildLevels rest (buildLevel lf.1 lf.2 st)

/-- `build_dfmm_forest` restricted to one target: the tree structure built
from `(ratios, factors)`.  `factors.enum.reverse` is the sequence of
`(level, factor)` pairs in processing order `L-1, …, 0`. -/
def build_dfmm_tree (ratios factors : List Nat) : Tree :=
  (buildLevels factors.enum.reverse ⟨ratios, [], []⟩).tree

def build_dfmm_forest (targets : List (List Nat × List Nat)) : List Tree :=
  targets.map (fun t => build_dfmm_tree t.1 t.2)

/-! ## P-value evaluator (core/algorithm/dfmm.py:58-73)

`tree_structure.get(node_id, {}).get('children', [])` is `lookupChildren`;
`get_p_for_node` recurses through the children.  The recursion is rendered
with explicit fuel (`0` is a junk value returned only on fuel exhaustion,
which never happens on built trees, whose children always sit exactly one
level deeper). -/

def lookupChildren (tree : Tree) (id : NodeId) : List NodeId :=
  match tree.find? (fun e => e.1 == id) with
  | some e => e.2
  | none => []

/-- Maximum of a list of `Nat` as `max(...)` over a non-empty list. -/
def listMax (l : List Nat) : Nat := l.foldr Nat.max 0

def pValueFuel (tree : Tree) (factors : List Nat) :
    Nat → NodeId → Nat
  | 0, _ => 0
  | fuel + 1, (l, k) =>
    let ch := lookupChildren tree (l, k)
    if ch.isEmpty then (factors.drop l).prod
    else listMax (ch.map (pValueFuel tree factors fuel)) * factors.getD l 0

/-- `get_p_for_node` of `calculate_p_values_from_structure`: on a childless
node it returns `prod(factors[level:])`, otherwise
`max(children P) * factors[level]`. -/
def calculate_p_value (tree : Tree) (factors : List Nat) (id : NodeId) :
    Nat :=
  pValueFuel tree factors (factors.length + 1) id

/-! ## Structural invariants of built trees -/

/-- Well-formedness of a built tree with `L` levels: node levels are below
`L`, node ids are unique, and every child of a node sits exactly one level
deeper and is itself a node of the tree. -/
def TreeWF (L : Nat) (tree : Tree) : Prop :=
  (∀ e ∈ tree, e.1.1 < L) ∧
  (tree.map (·.1)).Nodup ∧
  (∀ e ∈ tree, ∀ c ∈ e.2, c.1 = e.1.1 + 1 ∧ ∃ ch, (c, ch) ∈ tree)

/-- Invariant carried through the level loop: before processing level
`j - 1`, the nodes from below sit at level `j` and are recorded in the tree,
and all tree entries sit at levels in `[j, L)`. -/
def StInv (L j : Nat) (st : BuildState) : Prop :=
  (∀ id ∈ st.below, id.1 = j ∧ ∃ ch, (id, ch) ∈ st.tree) ∧
  (∀ e ∈ st.tree, j ≤ e.1.1 ∧ e.1.1 < L) ∧
  (st.tree.map (·.1)).Nodup ∧
  (∀ e ∈ st.tree, ∀ c ∈ e.2, c.1 = e.1.1 + 1 ∧ ∃ ch, (c, ch) ∈ st.tree)

theorem roundRobinChildren_subset {below : List NodeId} {numNodes k : Nat}
    {x : NodeId} (h : x ∈ roundRobinChildren below numNodes k) :
    x ∈ below := by
  unfold roundRobinChildren at h
  obtain ⟨p, hp, hpx⟩ := List.mem_map.mp h
  have := List.mem_of_mem_filter hp
  have : x ∈ below.enum.map Prod.snd := List.mem_map.mpr ⟨p, this, hpx⟩
  rwa [List.enum_map_snd] at this

theorem buildLevel_inv {L j f : Nat} {st : BuildState} (hj : j < L)
    (h : StInv L (j + 1) st) : StInv L j (buildLevel j f st) := by
  obtain ⟨hbelow, hlev, hnodup, hch⟩ := h
  unfold buildLevel
  refine ⟨?_, ?_, ?_, ?_⟩
  · intro id hid
    simp only [List.mem_map, List.mem_range] at hid
    obtain ⟨k, hk, rfl⟩ := hid
    exact ⟨rfl, _, List.mem_append_right _
      (List.mem_map.mpr ⟨k, List.mem_range.mpr hk, rfl⟩)⟩
  · intro e he
    simp only [List.mem_append, List.mem_map, List.mem_range] at he
    rcases he with he | he
    · have := hlev e he; omega
    · obtain ⟨k, hk, rfl⟩ := he
      exact ⟨Nat.le_refl _, hj⟩
  · rw [List.map_append]
    refine List.Nodup.append hnodup ?_ ?_
    · rw [List.map_map]
      refine List.Nodup.map ?_ (List.nodup_range _)
      intro a b hab
      have h1 : ((j, a) : NodeId) = (j, b) := hab
      injection h1 with h2 h3
    · intro a ha hb
      simp only [List.map_map, List.mem_map, List.mem_range,
        Function.comp] at hb
      obtain ⟨k, hk, rfl⟩ := hb
      obtain ⟨e, he, heq⟩ := List.mem_map.mp ha
      have h2 := (hlev e he).1
      rw [heq] at h2
      simp at h2
  · intro e he c hc
    simp only [List.mem_append, List.mem_map, List.mem_range] at he
    rcases he with he | he
    · obtain ⟨hc1, ch, hch2⟩ := hch e he c hc
      exact ⟨hc1, ch, List.mem_append_left _ hch2⟩
    · obtain ⟨k, hk, rfl⟩ := he
      have hcb : c ∈ st.below := roundRobinChildren_subset hc
      obtain ⟨hc1, ch, hch2⟩ := hbelow c hcb
      exact ⟨hc1, ch, List.mem_append_left _ hch2⟩

theorem buildLevels_inv (L : Nat) :
    ∀ (pending : List (Nat × Nat)) (j : Nat) (st : BuildState),
      pending.map Prod.fst = (List.range j).reverse → j ≤ L →
      StInv L j st → StInv L 0 (buildLevels pending st) := by
  intro pending
  induction pending with
  | nil =>
    intro j st hmap hj hst
    simp only [List.map_nil] at hmap
    have : j = 0 := by
      by_contra hne
      have : (List.range j).reverse ≠ [] := by
        simp [List.reverse_eq_nil_iff, List.range_eq_nil]
        omega
      exact this hmap.symm
    subst this
    exact hst
  | cons lf rest ih =>
    intro j st hmap hj hst
    cases j with
    | zero => simp at hmap
    | succ j =>
      rw [List.range_succ, List.reverse_append] at hmap
      simp only [List.map_cons, List.reverse_cons, List.reverse_nil,
        List.nil_append, List.cons_append, List.cons.injEq] at hmap
      obtain ⟨hlf, hrest⟩ := hmap
      show StInv L 0 (buildLevels rest (buildLevel lf.1 lf.2 st))
      refine ih j (buildLevel lf.1 lf.2 st) hrest (by omega) ?_
      rw [hlf]
      exact buildLevel_inv (by omega) hst

/-- Every tree produced by `build_dfmm_forest` is well-formed: node levels
are below `L = len(factors)`, ids are unique, and children sit exactly one
level deeper and are themselves nodes. -/
theorem build_dfmm_tree_wf (ratios factors : List Nat) :
    TreeWF factors.length (build_dfmm_tree ratios factors) := by
  have h := buildLevels_inv factors.length factors.enum.reverse
    factors.length ⟨ratios, [], []⟩ ?_ (Nat.le_refl _) ?_
  · obtain ⟨_, hlev, hnodup, hch⟩ := h
    exact ⟨fun e he => (hlev e he).2, hnodup, hch⟩
  · rw [List.map_reverse, List.enum_map_fst]
  · refine ⟨?_, ?_, ?_, ?_⟩ <;> simp

/-- If `(id, ch)` is an entry of a tree with unique ids, the Python
dictionary access `tree_structure.get(id, {}).get('children', [])` returns
`ch`. -/
theorem lookupChildren_eq {tree : Tree} {id : NodeId} {ch : List NodeId}
    (hnodup : (tree.map (·.1)).Nodup) (hmem : (id, ch) ∈ tree) :
    lookupChildren tree id = ch := by
  induction tree with
  | nil => cases hmem
  | cons e rest ih =>
    rcases List.mem_cons.mp hmem with h | h
    · subst h
      unfold lookupChildren
      simp [List.find?_cons]
    · have hne : e.1 ≠ id := by
        intro heq
        have : id ∈ rest.map (·.1) := List.mem_map.mpr ⟨(id, ch), h, rfl⟩
        rw [List.map_cons] at hnodup
        exact (List.nodup_cons.mp hnodup).1 (heq ▸ this)
      have hb : (e.1 == id) = false := by simpa using hne
      unfold lookupChildren
      rw [List.find?_cons, hb]
      exact ih (List.nodup_cons.mp (List.map_cons _ _ _ ▸ hnodup)).2 h

theorem listMax_const {l : List Nat} {v : Nat} (hne : l ≠ [])
    (h : ∀ x ∈ l, x = v) : listMax l = v := by
  induction l with
  | nil => exact absurd rfl hne
  | cons a rest ih =>
    have ha : a = v := h a (List.mem_cons_self _ _)
    cases rest with
    | nil => simp [listMax, ha]
    | cons b rest2 =>
      have : listMax (b :: rest2) = v :=
        ih (by simp) (fun x hx => h x (List.mem_cons_of_mem _ hx))
      unfold listMax at this ⊢
      simp only [List.foldr_cons] at this ⊢
      rw [this, ha]
      exact Nat.max_self v

theorem pValueFuel_eq_prod {tree : Tree} {factors : List Nat}
    (hwf : TreeWF factors.length tree) :
    ∀ (fuel : Nat) (id : NodeId) (ch : List NodeId), (id, ch) ∈ tree →
      factors.length + 1 - id.1 ≤ fuel →
      pValueFuel tree factors fuel id = (factors.drop id.1).prod := by
  obtain ⟨hlev, hnodup, hch⟩ := hwf
  intro fuel
  induction fuel with
  | zero =>
    intro id ch hmem hfuel
    have := hlev (id, ch) hmem
    simp at this
    omega
  | succ fuel ih =>
    intro id ch hmem hfuel
    obtain ⟨l, k⟩ := id
    have hl : l < factors.length := by have := hlev _ hmem; simpa using this
    have hlook : lookupChildren tree (l, k) = ch :=
      lookupChildren_eq hnodup hmem
    show pValueFuel tree factors (fuel + 1) (l, k) = _
    rw [pValueFuel, hlook]
    by_cases hche : ch.isEmpty
    · simp [hche]
    · simp only [hche, if_false]
      have hvals : ∀ x ∈ ch.map (pValueFuel tree factors fuel),
          x = (factors.drop (l + 1)).prod := by
        intro x hx
        obtain ⟨c, hc, rfl⟩ := List.mem_map.mp hx
        obtain ⟨hc1, ch2, hc2⟩ := hch _ hmem c hc
        have hcl : c.1 = l + 1 := by simpa using hc1
        have := ih c ch2 hc2 (by omega)
        rw [this, hcl]
      have hne : ch.map (pValueFuel tree factors fuel) ≠ [] := by
        intro hnil
        rw [List.map_eq_nil_iff] at hnil
        subst hnil
        simp at hche
      rw [listMax_const hne hvals]
      have hgd : factors.getD l 0 = factors[l] :=
        List.getD_eq_getElem factors 0 hl
      rw [hgd]
      rw [List.drop_eq_getElem_cons hl, List.prod_cons]
      exact Nat.mul_comm _ _

/-- Claim C10 core lemma: in a built tree, every node at level `ℓ` has
P-value `Π_{i ≥ ℓ} f_i`. -/
theorem calculate_p_value_eq_prod {ratios factors : List Nat}
    {id : NodeId} {ch : List NodeId}
    (hmem : (id, ch) ∈ build_dfmm_tree ratios factors) :
    calculate_p_value (build_dfmm_tree ratios factors) factors id =
      (factors.drop id.1).prod := by
  have hwf := build_dfmm_tree_wf ratios factors
  have hl : id.1 < factors.length := hwf.1 _ hmem
  exact pValueFuel_eq_prod hwf _ id ch hmem (by omega)

/-- Claim C10: the P-value evaluator assigns every node at level `ℓ` of a
built tree the value `Π_{i ≥ ℓ} f_i`; in particular the root's P-value is
`Π_ℓ f_ℓ`, which equals the ratio sum whenever `Σ ratios = Π factors`
(core/algorithm/dfmm.py:26-73). -/
theorem p_value_level_uniform (ratios factors : List Nat) :
    (∀ e ∈ build_dfmm_tree ratios factors,
      calculate_p_value (build_dfmm_tree ratios factors) factors e.1 =
        (factors.drop e.1.1).prod) ∧
    (∀ ch, ((0, 0), ch) ∈ build_dfmm_tree ratios factors →
      calculate_p_value (build_dfmm_tree ratios factors) factors (0, 0) =
        factors.prod ∧
      (ratios.sum = factors.prod →
        calculate_p_value (build_dfmm_tree ratios factors) factors (0, 0) =
          ratios.sum)) := by
  constructor
  · intro e he
    obtain ⟨id, ch⟩ := e
    exact calculate_p_value_eq_prod he
  · intro ch hch
    have h := calculate_p_value_eq_prod hch
    simp only [List.drop_zero] at h
    exact ⟨h, fun hs => by rw [h, hs]⟩

/-- Witness for C10: in the tree built from ratios `[1,1,5,5]` and factors
`[2,2,3]`, node `(1,0)` has P-value `(drop 1 [2,2,3]).prod = 6` and the
root has P-value `12 = Σ ratios`. -/
theorem p_value_level_uniform_witness :
    calculate_p_value (build_dfmm_tree [1, 1, 5, 5] [2, 2, 3]) [2, 2, 3]
      (1, 0) = ([2, 2, 3].drop 1).prod :=
  (p_value_level_uniform [1, 1, 5, 5] [2, 2, 3]).1 ((1, 0), [(2, 0)])
    (by decide)

/-- Counterexample to claim C3: for the valid target with ratios `[4,4]` and
factors `[2,2,2]` (`Σ ratios = 8 = Π factors`), the built tree consists of a
single childless root at level 0, and the evaluator gives it P-value
`prod(factors[0:]) = 8`, not `f_0 = 2`. -/
theorem childless_p_value_counterexample :
    List.sum [4, 4] = List.prod [2, 2, 2] ∧
    build_dfmm_tree [4, 4] [2, 2, 2] = [((0, 0), [])] ∧
    calculate_p_value (build_dfmm_tree [4, 4] [2, 2, 2]) [2, 2, 2]
      (0, 0) = 8 ∧
    List.getD [2, 2, 2] 0 0 = 2 ∧ (8 : Nat) ≠ 2 := by
  refine ⟨rfl, by decide, by decide, rfl, by decide⟩

/-- Claim C3 as amended: a childless node at level `ℓ` receives P-value
`Π_{i ≥ ℓ} f_i` (the product of the factors from its level down), which
coincides with `f_ℓ` when the node sits on the deepest level `L - 1`
(core/algorithm/dfmm.py:58-73). -/
theorem childless_p_value (tree : Tree) (factors : List Nat) (l k : Nat)
    (h : lookupChildren tree (l, k) = []) :
    calculate_p_value tree factors (l, k) = (factors.drop l).prod ∧
    (l + 1 = factors.length →
      calculate_p_value tree factors (l, k) = factors.getD l 0) := by
  have hbase : calculate_p_value tree factors (l, k) =
      (factors.drop l).prod := by
    unfold calculate_p_value
    rw [pValueFuel, h]
    simp
  refine ⟨hbase, fun hl => ?_⟩
  have hlt : l < factors.length := by omega
  rw [hbase, List.drop_eq_getElem_cons hlt]
  have : factors.drop (l + 1) = [] := List.drop_eq_nil_of_le (by omega)
  rw [this, List.prod_cons, List.prod_nil, Nat.mul_one,
    List.getD_eq_getElem factors 0 hlt]

/-- Witness for the amended C3: in the tree built from ratios `[2,11,5]`
and factors `[3,3,2]`, node `(1,1)` is childless at the non-deepest level 1
and its P-value is `(drop 1 [3,3,2]).prod = 6`. -/
theorem childless_p_value_witness :
    calculate_p_value (build_dfmm_tree [2, 11, 5] [3, 3, 2]) [3, 3, 2]
      (1, 1) = ([3, 3, 2].drop 1).prod :=
  (childless_p_value (build_dfmm_tree [2, 11, 5] [3, 3, 2]) [3, 3, 2] 1 1
    (by decide)).1

/-! ## Problem model: candidate-edge enumeration
(core/model/problem.py:35-113)

A target configuration is a list of `(ratios, factors)` pairs; a problem
node is `(m, (l, k))`.  `admissibleB` translates the admission conditions
of `MTWMProblem._precompute_potential_sources` line by line; the iteration
order over nodes follows the tree association lists (the conditions and the
source map are order-insensitive: the map holds, for each sink, the list of
all admissible sources). -/

inductive InterMode where
  | ring
  | linear
  | all
deriving DecidableEq

/-- The run options consulted by the problem model and the encoder:
`Config.MAX_LEVEL_DIFF`, `Config.ENABLE_ROLE_BASED_PRUNING`,
`Config.INTER_SHARING_MODE` and `Config.MAX_SHARING_VOLUME`. -/
structure RunConfig where
  maxLevelDiff : Option Nat
  rolePruning : Bool
  interMode : InterMode
  maxSharingVolume : Option Nat

abbrev TargetsConfig := List (List Nat × List Nat)

def factorsOf (targets : TargetsConfig) (m : Nat) : List Nat :=
  (targets.getD m ([], [])).2

def treeOf (targets : TargetsConfig) (m : Nat) : Tree :=
  (build_dfmm_forest targets).getD m []

/-- `p_values[m][(l, k)]` of the precomputed forest. -/
def pValueOf (targets : TargetsConfig) (m : Nat) (id : NodeId) : Nat :=
  calculate_p_value (treeOf targets m) (factorsOf targets m) id

/-- The `all_nodes` list of `_precompute_potential_sources`: every
`(m, (l, k))` of the forest. -/
def allNodes (targets : TargetsConfig) : List (Nat × NodeId) :=
  (List.range targets.length).flatMap
    (fun m => (treeOf targets m).map (fun e => (m, e.1)))

/-- The default-edge test: same target and `(l_src, k_src)` among the
children of `(l_dst, k_dst)` in the tree structure. -/
def isDefaultEdge (targets : TargetsConfig) (dst src : Nat × NodeId) :
    Bool :=
  src.1 == dst.1 &&
    (lookupChildren (treeOf targets dst.1) dst.2).contains src.2

/-- The admission test of `_precompute_potential_sources`: physical level
check, optional level-diff bound, concentration compatibility
`(p_dst // f_dst) % p_src == 0`, and — only when role-based pruning is on
and the pair is not a default edge — the role/topology filter. -/
def admissibleB (cfg : RunConfig) (targets : TargetsConfig)
    (dst src : Nat × NodeId) : Bool :=
  if src.2.1 ≤ dst.2.1 then false
  else if (match cfg.maxLevelDiff with
      | some d => decide (dst.2.1 + d < src.2.1)
      | none => false) then false
  else if (pValueOf targets dst.1 dst.2 /
        (factorsOf targets dst.1).getD dst.2.1 0) %
      pValueOf targets src.1 src.2 != 0 then false
  else if cfg.rolePruning && !(isDefaultEdge targets dst src) then
    (if src.1 == dst.1 then
      (if (src.2.2 + src.1) % 3 == 0 then decide (src.2.1 - dst.2.1 = 1)
       else if (src.2.2 + src.1) % 3 == 1 then
         decide (1 < src.2.1 - dst.2.1)
       else false)
     else
      (match cfg.interMode with
       | InterMode.ring => decide (dst.1 = (src.1 + 1) % targets.length)
       | InterMode.linear => decide (dst.1 = src.1 + 1)
       | InterMode.all => (src.2.2 + src.1) % 3 == 2))
  else true

/-- `potential_sources_map[dst]`: the admissible sources of a sink, in node
order. -/
def potential_sources (cfg : RunConfig) (targets : TargetsConfig)
    (dst : Nat × NodeId) : List (Nat × NodeId) :=
  (allNodes targets).filter (admissibleB cfg targets dst)

theorem mem_allNodes {targets : TargetsConfig} {m : Nat} {id : NodeId}
    {ch : List NodeId} (hm : m < targets.length)
    (hmem : (id, ch) ∈ treeOf targets m) : (m, id) ∈ allNodes targets := by
  unfold allNodes
  rw [List.mem_flatMap]
  exact ⟨m, List.mem_range.mpr hm,
    List.mem_map.mpr ⟨(id, ch), hmem, rfl⟩⟩

theorem treeOf_eq {targets : TargetsConfig} {m : Nat}
    (hm : m < targets.length) :
    treeOf targets m =
      build_dfmm_tree (targets.get ⟨m, hm⟩).1 (targets.get ⟨m, hm⟩).2 := by
  unfold treeOf build_dfmm_forest
  rw [List.getD_eq_getElem _ _ (by simpa using hm), List.getElem_map]
  rfl

theorem factorsOf_eq {targets : TargetsConfig} {m : Nat}
    (hm : m < targets.length) :
    factorsOf targets m = (targets.get ⟨m, hm⟩).2 := by
  unfold factorsOf
  rw [List.getD_eq_getElem _ _ hm]
  rfl

/-- Claim C6: every parent/child pair of a built tree passes the
admissibility test — in particular `(P_dst / f_dst) % P_src = 0` — and the
child appears in the parent's admissible-source list, for every setting of
`role_based_pruning` and `inter_sharing_mode`, whenever `max_level_diff` is
unset or at least 1 (core/model/problem.py:35-113). -/
theorem default_edge_admissible (cfg : RunConfig)
    (targets : TargetsConfig) (m : Nat) (hm : m < targets.length)
    (par : NodeId × List NodeId) (hpar : par ∈ treeOf targets m)
    (c : NodeId) (hc : c ∈ par.2)
    (hd : ∀ d, cfg.maxLevelDiff = some d → 1 ≤ d)
    (hf : ∀ x ∈ factorsOf targets m, 0 < x) :
    admissibleB cfg targets (m, par.1) (m, c) = true ∧
    (m, c) ∈ potential_sources cfg targets (m, par.1) := by
  have htree : treeOf targets m =
      build_dfmm_tree (targets.get ⟨m, hm⟩).1 (targets.get ⟨m, hm⟩).2 :=
    treeOf_eq hm
  have hfacts : factorsOf targets m = (targets.get ⟨m, hm⟩).2 :=
    factorsOf_eq hm
  have hwf : TreeWF (factorsOf targets m).length (treeOf targets m) := by
    rw [htree, hfacts]; exact build_dfmm_tree_wf _ _
  obtain ⟨hcl, ch2, hc2⟩ := hwf.2.2 par hpar c hc
  have hl : par.1.1 < (factorsOf targets m).length := hwf.1 par hpar
  have hpos : 0 < (factorsOf targets m)[par.1.1] :=
    hf _ (List.getElem_mem _)
  have hpdst : pValueOf targets m par.1 =
      ((factorsOf targets m).drop par.1.1).prod := by
    unfold pValueOf
    rw [htree, hfacts]
    rw [hfacts] at *
    exact calculate_p_value_eq_prod (htree ▸ hpar)
  have hpsrc : pValueOf targets m c =
      ((factorsOf targets m).drop (par.1.1 + 1)).prod := by
    unfold pValueOf
    rw [htree, hfacts]
    rw [hfacts] at *
    rw [← hcl]
    exact calculate_p_value_eq_prod (htree ▸ hc2)
  have hfd : (factorsOf targets m).getD par.1.1 0 =
      (factorsOf targets m)[par.1.1] :=
    List.getD_eq_getElem _ _ hl
  have hdropEq : ((factorsOf targets m).drop par.1.1).prod =
      (factorsOf targets m)[par.1.1] *
        ((factorsOf targets m).drop (par.1.1 + 1)).prod := by
    rw [List.drop_eq_getElem_cons hl, List.prod_cons]
  have hquot : pValueOf targets m par.1 /
      (factorsOf targets m).getD par.1.1 0 =
      ((factorsOf targets m).drop (par.1.1 + 1)).prod := by
    rw [hpdst, hfd, hdropEq, Nat.mul_div_cancel_left _ hpos]
  have hdef : isDefaultEdge targets (m, par.1) (m, c) = true := by
    unfold isDefaultEdge
    have hlook : lookupChildren (treeOf targets m) par.1 = par.2 :=
      lookupChildren_eq hwf.2.1 hpar
    simp only [beq_self_eq_true, Bool.true_and]
    rw [hlook]
    exact List.elem_eq_true_of_mem hc
  have hadm : admissibleB cfg targets (m, par.1) (m, c) = true := by
    unfold admissibleB
    have hA : ¬ ((m, c).2.1 ≤ (m, par.1).2.1) := by
      show ¬ (c.1 ≤ par.1.1); omega
    rw [if_neg hA]
    have hB : (match cfg.maxLevelDiff with
        | some d => decide ((m, par.1).2.1 + d < (m, c).2.1)
        | none => false) = false := by
      cases hmd : cfg.maxLevelDiff with
      | none => rfl
      | some d =>
        have := hd d hmd
        show decide (par.1.1 + d < c.1) = false
        rw [decide_eq_false]
        omega
    rw [hB]
    simp only [Bool.false_eq_true, if_false]
    have hC : ((pValueOf targets (m, par.1).1 (m, par.1).2 /
          (factorsOf targets (m, par.1).1).getD (m, par.1).2.1 0) %
        pValueOf targets (m, c).1 (m, c).2 != 0) = false := by
      show ((pValueOf targets m par.1 /
          (factorsOf targets m).getD par.1.1 0) %
        pValueOf targets m c != 0) = false
      rw [hquot, hpsrc, Nat.mod_self]
      rfl
    rw [hC]
    simp only [Bool.false_eq_true, if_false]
    rw [hdef]
    simp
  refine ⟨hadm, ?_⟩
  exact List.mem_filter.mpr ⟨mem_allNodes hm hc2, hadm⟩

/-- Witness for C6: in the single-target forest for ratios `[1,1,1,1]`,
factors `[2,2]`, the default edge from child `(1,0)` to the root passes the
admissibility test with role pruning on, inter mode `all` and
`max_level_diff = 1`. -/
theorem default_edge_admissible_witness :
    admissibleB ⟨some 1, true, InterMode.all, none⟩
        [([1, 1, 1, 1], [2, 2])] (0, (0, 0)) (0, (1, 0)) = true ∧
    (0, (1, 0)) ∈ potential_sources ⟨some 1, true, InterMode.all, none⟩
        [([1, 1, 1, 1], [2, 2])] (0, (0, 0)) :=
  default_edge_admissible ⟨some 1, true, InterMode.all, none⟩
    [([1, 1, 1, 1], [2, 2])] 0 (by decide)
    ((0, 0), [(1, 0), (1, 1)]) (by decide) (1, 0) (by decide)
    (by intro d h; injection h with h2; omega) (by decide)

/-- Three identical targets used to probe the inter-target topology filter:
each builds a two-level tree with one intermediate node `(1,0)`. -/
def ringProbeTargets : TargetsConfig :=
  [([1, 1, 2], [2, 2]), ([1, 1, 2], [2, 2]), ([1, 1, 2], [2, 2])]

/-- Counterexample to claim C5: with `inter_sharing_mode = 'ring'` but
`role_based_pruning` disabled, the non-default cross-target edge from
`(0,(1,0))` to `(2,(0,0))` is admitted even though `2 ≠ (0 + 1) mod 3` —
the whole role/topology block of `_precompute_potential_sources` is guarded
by `ENABLE_ROLE_BASED_PRUNING`, so the ring rule is simply not applied. -/
theorem ring_mode_counterexample :
    admissibleB ⟨none, false, InterMode.ring, none⟩ ringProbeTargets
        (2, (0, 0)) (0, (1, 0)) = true ∧
    (0, (1, 0)) ∈ potential_sources ⟨none, false, InterMode.ring, none⟩
        ringProbeTargets (2, (0, 0)) ∧
    isDefaultEdge ringProbeTargets (2, (0, 0)) (0, (1, 0)) = false ∧
    ¬ ((2 : Nat) = (0 + 1) % 3) := by
  refine ⟨by decide, by decide, by decide, by decide⟩

/-- Claim C5 as amended: when `role_based_pruning` is enabled and
`inter_sharing_mode = 'ring'`, every admissible non-default edge between
two different targets satisfies `m_dst = (m_src + 1) mod M`; with pruning
disabled the topology filter is skipped entirely. -/
theorem ring_mode_adjacent (cfg : RunConfig) (targets : TargetsConfig)
    (dst src : Nat × NodeId)
    (hp : cfg.rolePruning = true) (hmode : cfg.interMode = InterMode.ring)
    (hne : src.1 ≠ dst.1)
    (hadm : admissibleB cfg targets dst src = true) :
    dst.1 = (src.1 + 1) % targets.length := by
  unfold admissibleB at hadm
  split at hadm
  · exact absurd hadm (by simp)
  · split at hadm
    · exact absurd hadm (by simp)
    · split at hadm
      · exact absurd hadm (by simp)
      · split at hadm
        · rename_i hguard
          have hbeq : (src.1 == dst.1) = false := by
            simpa using hne
          rw [hbeq] at hadm
          simp only [Bool.false_eq_true, if_false] at hadm
          rw [hmode] at hadm
          exact of_decide_eq_true hadm
        · rename_i hguard
          rw [hp] at hguard
          have hdef : isDefaultEdge targets dst src = true := by
            cases h : isDefaultEdge targets dst src
            · rw [h] at hguard; simp at hguard
            · rfl
          unfold isDefaultEdge at hdef
          have : (src.1 == dst.1) = true :=
            ((Bool.and_eq_true _ _).mp hdef).1
          exact absurd (by simpa using this) hne

/-- Witness for the amended C5: with pruning on and ring mode, the edge
from `(0,(1,0))` to the ring-adjacent sink `(1,(0,0))` is admissible and
the conclusion `1 = (0 + 1) mod 3` holds. -/
theorem ring_mode_adjacent_witness :
    admissibleB ⟨none, true, InterMode.ring, none⟩ ringProbeTargets
        (1, (0, 0)) (0, (1, 0)) = true ∧ (1 : Nat) = (0 + 1) % 3 :=
  ⟨by decide,
    ring_mode_adjacent ⟨none, true, InterMode.ring, none⟩
      ringProbeTargets (1, (0, 0)) (0, (1, 0)) rfl rfl (by decide)
      (by decide)⟩

/-! ## The constraint encoder (core/solver/engine.py)

`OrToolsSolver._set_variables_and_constraints` emits, over bounded integer
variables, the initial, conservation, concentration, ratio-sum, leaf,
mixer-capacity and activity constraints, the waste definitions and — in
waste mode — the `Σ Waste ≥ 1` constraint.  The embedding renders the
emitted system as a Boolean feasibility predicate over an `Assignment`
(one field per variable family; CP-SAT interval domains become explicit
bound conjuncts; each `AddMultiplicationEquality` auxiliary is replaced by
its defining product `w * r` together with its declared upper bound
`f_src * p_src`).  Conjunct order follows the source; sums are over the
same index sets the source iterates (order of a `Nat` sum is immaterial). -/

/-- `reduce(lambda x, y: (x * y) // gcd(x, y), numbers)` with the empty-list
guard returning 1 (`OrToolsSolver._lcm`). -/
def lcmList : List Nat → Nat
  | [] => 1
  | x :: xs => xs.foldl Nat.lcm x

theorem dvd_foldl_lcm {x : Nat} :
    ∀ (l : List Nat) (acc : Nat), x ∣ acc → x ∣ l.foldl Nat.lcm acc := by
  intro l
  induction l with
  | nil => intro acc h; exact h
  | cons z zs ih =>
    intro acc h
    exact ih (Nat.lcm acc z) (h.trans (Nat.dvd_lcm_left _ _))

theorem dvd_lcmList {l : List Nat} {x : Nat} (h : x ∈ l) : x ∣ lcmList l := by
  cases l with
  | nil => cases h
  | cons y ys =>
    unfold lcmList
    rcases List.mem_cons.mp h with rfl | h2
    · exact dvd_foldl_lcm ys x dvd_rfl
    · clear h
      induction ys generalizing y with
      | nil => cases h2
      | cons z zs ih =>
        rcases List.mem_cons.mp h2 with rfl | h3
        · exact dvd_foldl_lcm zs (Nat.lcm y x) (Nat.dvd_lcm_right _ _)
        · exact ih (Nat.lcm y z) h3

theorem lcmList_pos {l : List Nat} (h : ∀ x ∈ l, 0 < x) : 0 < lcmList l := by
  cases l with
  | nil => exact Nat.one_pos
  | cons y ys =>
    unfold lcmList
    have hy := h y (List.mem_cons_self _ _)
    have hys : ∀ x ∈ ys, 0 < x := fun x hx =>
      h x (List.mem_cons_of_mem _ hx)
    clear h
    induction ys generalizing y with
    | nil => exact hy
    | cons z zs ih =>
      have hz := hys z (List.mem_cons_self _ _)
      exact ih (Nat.lcm y z) (Nat.lcm_pos hy hz)
        (fun x hx => hys x (List.mem_cons_of_mem _ hx))

/-- One integer assignment to the encoder's variable families
(`Ratio`, `Reagent`, the sharing variables `w_*`, `TotalInput`, `IsActive`,
`waste`), indexed by problem node. -/
structure Assignment where
  ratio : Nat → NodeId → Nat → Nat
  reagent : Nat → NodeId → Nat → Nat
  w : Nat × NodeId → Nat × NodeId → Nat
  totalInput : Nat → NodeId → Nat
  isActive : Nat → NodeId → Bool
  waste : Nat → NodeId → Nat

def numReagents (targets : TargetsConfig) : Nat :=
  (targets.getD 0 ([], [])).1.length

def boolVal (b : Bool) : Nat := cond b 1 0

/-- The node's input sources in the order the engine's variable dictionaries
hold them: the intra-sharing entries (same target) followed by the
inter-sharing entries. -/
def sourcesSeq (cfg : RunConfig) (targets : TargetsConfig)
    (dst : Nat × NodeId) : List (Nat × NodeId) :=
  (potential_sources cfg targets dst).filter (fun s => s.1 == dst.1) ++
    (potential_sources cfg targets dst).filter (fun s => s.1 != dst.1)

/-- `max_sharing_vol = min(f_value, Config.MAX_SHARING_VOLUME)` (or
`f_value` when unset). -/
def sharingBound (cfg : RunConfig) (fdst : Nat) : Nat :=
  match cfg.maxSharingVolume with
  | none => fdst
  | some v => min fdst v

def hasNode (targets : TargetsConfig) (m : Nat) (id : NodeId) : Bool :=
  (treeOf targets m).any (fun e => e.1 == id)

/-- `_get_outgoing_vars`: every sharing variable whose source key names this
node, i.e. one per sink that lists the node among its potential sources. -/
def outgoingSum (cfg : RunConfig) (targets : TargetsConfig)
    (sigma : Assignment) (n : Nat × NodeId) : Nat :=
  (((allNodes targets).filter
      (fun dst => (potential_sources cfg targets dst).contains n)).map
    (fun dst => sigma.w n dst)).sum

/-- Variable-domain constraints from `_define_or_tools_variables`. -/
def boundsOK (cfg : RunConfig) (targets : TargetsConfig)
    (sigma : Assignment) (n : Nat × NodeId) : Bool :=
  let p := pValueOf targets n.1 n.2
  let f := (factorsOf targets n.1).getD n.2.1 0
  let T := numReagents targets
  ((List.range T).all fun t => sigma.ratio n.1 n.2 t ≤ p) &&
  ((List.range T).all fun t =>
    sigma.reagent n.1 n.2 t ≤ Nat.max 0 (f - 1)) &&
  ((sourcesSeq cfg targets n).all fun s =>
    sigma.w s n ≤ sharingBound cfg f) &&
  (sigma.totalInput n.1 n.2 ≤ f) &&
  (if 0 < n.2.1 then sigma.waste n.1 n.2 ≤ f else true)

/-- `_set_initial_constraints`: the root ratios equal the target ratios. -/
def initialOK (targets : TargetsConfig) (sigma : Assignment) : Bool :=
  (List.range targets.length).all fun m =>
    if hasNode targets m (0, 0) then
      (List.range (numReagents targets)).all fun t =>
        sigma.ratio m (0, 0) t == (targets.getD m ([], [])).1.getD t 0
    else true

/-- `_set_conservation_constraints`:
`TotalInput = Σ reagent + Σ w_in`. -/
def conservationOK (cfg : RunConfig) (targets : TargetsConfig)
    (sigma : Assignment) (n : Nat × NodeId) : Bool :=
  sigma.totalInput n.1 n.2 ==
    ((List.range (numReagents targets)).map (sigma.reagent n.1 n.2)).sum +
    ((sourcesSeq cfg targets n).map (fun s => sigma.w s n)).sum

/-- `_set_concentration_constraints` for one sink: with
`C = lcm(p_src…, p_dst)`,
`f_dst * Ratio_dst[t] * (C / p_dst)
   = Reagent_dst[t] * C + Σ (w * Ratio_src[t]) * (C / p_src)`,
each product variable bounded by `f_src * p_src`. -/
def concentrationOK (cfg : RunConfig) (targets : TargetsConfig)
    (sigma : Assignment) (n : Nat × NodeId) : Bool :=
  let p := pValueOf targets n.1 n.2
  let f := (factorsOf targets n.1).getD n.2.1 0
  let srcs := sourcesSeq cfg targets n
  let c := lcmList ((srcs.map fun s => pValueOf targets s.1 s.2) ++ [p])
  (List.range (numReagents targets)).all fun t =>
    (srcs.all fun s =>
      sigma.w s n * sigma.ratio s.1 s.2 t ≤
        (factorsOf targets s.1).getD s.2.1 0 * pValueOf targets s.1 s.2) &&
    (f * sigma.ratio n.1 n.2 t * (c / p) ==
      sigma.reagent n.1 n.2 t * c +
      (srcs.map fun s =>
        (sigma.w s n * sigma.ratio s.1 s.2 t) *
          (c / pValueOf targets s.1 s.2)).sum)

/-- `_set_ratio_sum_constraints`: `Σ_t Ratio = P * IsActive`. -/
def ratioSumOK (targets : TargetsConfig) (sigma : Assignment)
    (n : Nat × NodeId) : Bool :=
  ((List.range (numReagents targets)).map (sigma.ratio n.1 n.2)).sum ==
    pValueOf targets n.1 n.2 * boolVal (sigma.isActive n.1 n.2)

/-- `_set_leaf_node_constraints`: when `P = f`, `Ratio[t] = Reagent[t]`. -/
def leafOK (targets : TargetsConfig) (sigma : Assignment)
    (n : Nat × NodeId) : Bool :=
  if pValueOf targets n.1 n.2 = (factorsOf targets n.1).getD n.2.1 0 then
    (List.range (numReagents targets)).all fun t =>
      sigma.ratio n.1 n.2 t == sigma.reagent n.1 n.2 t
  else true

/-- `_set_mixer_capacity_constraints`: at the root `TotalInput = f` and
`IsActive = 1`; elsewhere `TotalInput = f * IsActive`. -/
def capacityOK (targets : TargetsConfig) (sigma : Assignment)
    (n : Nat × NodeId) : Bool :=
  let f := (factorsOf targets n.1).getD n.2.1 0
  if n.2.1 = 0 then
    (sigma.totalInput n.1 n.2 == f) && (sigma.isActive n.1 n.2 == true)
  else
    sigma.totalInput n.1 n.2 == f * boolVal (sigma.isActive n.1 n.2)

/-- `_set_activity_constraints` (non-root): active nodes have outgoing sum
`≥ 1`, inactive ones have outgoing sum `0`. -/
def activityOK (cfg : RunConfig) (targets : TargetsConfig)
    (sigma : Assignment) (n : Nat × NodeId) : Bool :=
  if n.2.1 = 0 then true
  else if sigma.isActive n.1 n.2 then
    decide (1 ≤ outgoingSum cfg targets sigma n)
  else outgoingSum cfg targets sigma n == 0

/-- The waste definition of `_set_objective_function` (both modes):
`waste = TotalInput - Σ w_out` for non-root nodes (the variable's
`[0, f]` domain makes the subtraction exact). -/
def wasteDefOK (cfg : RunConfig) (targets : TargetsConfig)
    (sigma : Assignment) (n : Nat × NodeId) : Bool :=
  if n.2.1 = 0 then true
  else sigma.waste n.1 n.2 + outgoingSum cfg targets sigma n ==
    sigma.totalInput n.1 n.2

def nodeOK (cfg : RunConfig) (targets : TargetsConfig)
    (sigma : Assignment) (n : Nat × NodeId) : Bool :=
  boundsOK cfg targets sigma n &&
  conservationOK cfg targets sigma n &&
  concentrationOK cfg targets sigma n &&
  ratioSumOK targets sigma n &&
  leafOK targets sigma n &&
  capacityOK targets sigma n &&
  activityOK cfg targets sigma n &&
  wasteDefOK cfg targets sigma n

/-- The mode-independent part of the emitted constraint system. -/
def feasCoreB (cfg : RunConfig) (targets : TargetsConfig)
    (sigma : Assignment) : Bool :=
  initialOK targets sigma &&
    (allNodes targets).all (nodeOK cfg targets sigma)

/-- `Σ Waste` over the non-root nodes (the waste objective). -/
def totalWasteVal (targets : TargetsConfig) (sigma : Assignment) : Nat :=
  (((allNodes targets).filter (fun n => decide (0 < n.2.1))).map
    (fun n => sigma.waste n.1 n.2)).sum

/-- `Σ IsActive` over all nodes (the operations objective). -/
def totalOpsVal (targets : TargetsConfig) (sigma : Assignment) : Nat :=
  ((allNodes targets).map (fun n => boolVal (sigma.isActive n.1 n.2))).sum

inductive ObjectiveMode where
  | waste
  | operations
  | reagents
deriving DecidableEq

/-- The full emitted system: in waste mode `_set_objective_function`
additionally adds `total_waste >= 1` (engine.py line 408) before
minimizing. -/
def feasB (cfg : RunConfig) (targets : TargetsConfig)
    (mode : ObjectiveMode) (sigma : Assignment) : Bool :=
  feasCoreB cfg targets sigma &&
    (match mode with
     | ObjectiveMode.waste => decide (1 ≤ totalWasteVal targets sigma)
     | ObjectiveMode.operations => true
     | ObjectiveMode.reagents => true)

/-! ## Concrete instances and assignments used to settle the encoder
claims -/

/-- Default run options: no sharing-volume cap, no level-diff cap, role
pruning off. -/
def cfgDefault : RunConfig := ⟨none, false, InterMode.ring, none⟩

/-- The S6 boundary instance: a single target whose factor list is the
single prime `2` and whose ratios sum to `2`. -/
def s6Targets : TargetsConfig := [([1, 1], [2])]

/-- The zero-waste plan for `s6Targets`: the root is a leaf fed by one unit
of each pure reagent. -/
def s6Assignment : Assignment where
  ratio := fun _ id t =>
    if id = ((0 : Nat), (0 : Nat)) then [1, 1].getD t 0 else 0
  reagent := fun _ id t =>
    if id = ((0 : Nat), (0 : Nat)) then [1, 1].getD t 0 else 0
  w := fun _ _ => 0
  totalInput := fun _ id => if id = ((0 : Nat), (0 : Nat)) then 2 else 0
  isActive := fun _ _ => true
  waste := fun _ _ => 0

/-- Claim C1 (code bug): for the S6 instance the encoder's waste-mode
system is infeasible for every assignment, because
`_set_objective_function` adds `total_waste >= 1` unconditionally
(engine.py line 408) while the instance has no waste variable at all
(`Σ Waste` is the empty sum `0`); yet the rest of the emitted system does
admit the zero-waste plan the spec expects. -/
theorem waste_hint_s6_infeasible :
    (∀ sigma : Assignment,
      feasB cfgDefault s6Targets ObjectiveMode.waste sigma = false) ∧
    feasCoreB cfgDefault s6Targets s6Assignment = true ∧
    totalWasteVal s6Targets s6Assignment = 0 := by
  refine ⟨?_, by decide, by decide⟩
  intro sigma
  have h0 : totalWasteVal s6Targets sigma = 0 := rfl
  show (feasCoreB cfgDefault s6Targets sigma &&
    decide (1 ≤ totalWasteVal s6Targets sigma)) = false
  rw [h0]
  simp

/-- The single-target instance ratios `[1,1,5,5]`, factors `[2,2,3]`: its
tree has two nodes at level 1 and two at level 2. -/
def lpTargets : TargetsConfig := [([1, 1, 5, 5], [2, 2, 3])]

/-- A feasible engine assignment for `lpTargets` that activates node
`(1,1)` but not `(1,0)`: level-1 production is served by `(1,1)` (fed by
leaf `(2,0)`) while the root additionally draws on leaf `(2,1)`. -/
def lpAssignment : Assignment where
  ratio := fun _ id t =>
    if id = ((0 : Nat), (0 : Nat)) then [1, 1, 5, 5].getD t 0
    else if id = (1, 1) then [1, 1, 1, 3].getD t 0
    else if id = (2, 0) then [1, 1, 1, 0].getD t 0
    else if id = (2, 1) then [0, 0, 2, 1].getD t 0
    else 0
  reagent := fun _ id t =>
    if id = ((1 : Nat), (1 : Nat)) then [0, 0, 0, 1].getD t 0
    else if id = (2, 0) then [1, 1, 1, 0].getD t 0
    else if id = (2, 1) then [0, 0, 2, 1].getD t 0
    else 0
  w := fun s d =>
    if s = ((0 : Nat), ((1 : Nat), (1 : Nat))) ∧ d = (0, (0, 0)) then 1
    else if s = (0, (2, 1)) ∧ d = (0, (0, 0)) then 1
    else if s = (0, (2, 0)) ∧ d = (0, (1, 1)) then 1
    else 0
  totalInput := fun _ id =>
    if id = ((0 : Nat), (0 : Nat)) then 2 else if id = (1, 1) then 2
    else if id = (2, 0) then 3 else if id = (2, 1) then 3 else 0
  isActive := fun _ id => decide (id ≠ ((1 : Nat), (0 : Nat)))
  waste := fun _ id =>
    if id = ((1 : Nat), (1 : Nat)) then 1 else if id = (2, 0) then 2
    else if id = (2, 1) then 2 else 0

/-- Counterexample to claim C2: `core/solver/engine.py` emits no
symmetry-breaking constraint (`_set_variables_and_constraints` calls no
such method), and the shown assignment is feasible for its waste-mode
system while violating `IsActive[1,0] ≥ IsActive[1,1]` within level 1. -/
theorem left_packing_counterexample :
    feasB cfgDefault lpTargets ObjectiveMode.waste lpAssignment = true ∧
    lpAssignment.isActive 0 (1, 0) = false ∧
    lpAssignment.isActive 0 (1, 1) = true ∧
    (0, ((1 : Nat), (0 : Nat))) ∈ allNodes lpTargets ∧
    (0, ((1 : Nat), (1 : Nat))) ∈ allNodes lpTargets := by
  refine ⟨by decide, by decide, by decide, by decide, by decide⟩

/-- Claim C4: in every feasible assignment of the emitted system, every
node satisfies `Σ_t Ratio = P * IsActive`, non-root nodes satisfy
`TotalInput = f_ℓ * IsActive`, and level-0 nodes satisfy `TotalInput = f_0`
with `IsActive = 1` (engine.py `_set_ratio_sum_constraints` and
`_set_mixer_capacity_constraints`). -/
theorem feasible_ratio_sum_capacity (cfg : RunConfig)
    (targets : TargetsConfig) (mode : ObjectiveMode) (sigma : Assignment)
    (h : feasB cfg targets mode sigma = true) :
    ∀ n ∈ allNodes targets,
      ((List.range (numReagents targets)).map (sigma.ratio n.1 n.2)).sum =
        pValueOf targets n.1 n.2 * boolVal (sigma.isActive n.1 n.2) ∧
      (0 < n.2.1 → sigma.totalInput n.1 n.2 =
        (factorsOf targets n.1).getD n.2.1 0 *
          boolVal (sigma.isActive n.1 n.2)) ∧
      (n.2.1 = 0 → sigma.totalInput n.1 n.2 =
        (factorsOf targets n.1).getD n.2.1 0 ∧
        sigma.isActive n.1 n.2 = true) := by
  intro n hn
  have hcore : feasCoreB cfg targets sigma = true :=
    ((Bool.and_eq_true _ _).mp (by
      unfold feasB at h; exact h)).1
  unfold feasCoreB at hcore
  have hall := ((Bool.and_eq_true _ _).mp hcore).2
  have hnode := List.all_eq_true.mp hall n hn
  unfold nodeOK at hnode
  simp only [Bool.and_eq_true] at hnode
  obtain ⟨⟨⟨⟨⟨⟨⟨hb, hcons⟩, hconc⟩, hrs⟩, hlf⟩, hcap⟩, hact⟩, hwd⟩ :=
    hnode
  refine ⟨?_, ?_, ?_⟩
  · simp only [ratioSumOK, beq_iff_eq] at hrs
    exact hrs
  · intro hl
    simp only [capacityOK] at hcap
    rw [if_neg (by omega)] at hcap
    simpa using hcap
  · intro hl
    simp only [capacityOK] at hcap
    rw [if_pos hl] at hcap
    obtain ⟨h1, h2⟩ := (Bool.and_eq_true _ _).mp hcap
    exact ⟨by simpa using h1, by simpa using h2⟩

/-- The single-target instance ratios `[1,1,1,1]`, factors `[2,2]`: a root
with two leaf children. -/
def opsTargets : TargetsConfig := [([1, 1, 1, 1], [2, 2])]

/-- A fully active feasible assignment for `opsTargets`: each leaf mixes
two pure reagents and passes one unit to the root. -/
def opsAssignment : Assignment where
  ratio := fun _ id t =>
    if id = ((0 : Nat), (0 : Nat)) then [1, 1, 1, 1].getD t 0
    else if id = (1, 0) then [1, 1, 0, 0].getD t 0
    else if id = (1, 1) then [0, 0, 1, 1].getD t 0
    else 0
  reagent := fun _ id t =>
    if id = ((1 : Nat), (0 : Nat)) then [1, 1, 0, 0].getD t 0
    else if id = (1, 1) then [0, 0, 1, 1].getD t 0
    else 0
  w := fun s d =>
    if s = ((0 : Nat), ((1 : Nat), (0 : Nat))) ∧ d = (0, (0, 0)) then 1
    else if s = (0, (1, 1)) ∧ d = (0, (0, 0)) then 1
    else 0
  totalInput := fun _ _ => 2
  isActive := fun _ _ => true
  waste := fun _ id =>
    if id = ((1 : Nat), (0 : Nat)) then 1
    else if id = (1, 1) then 1 else 0

/-- Witness for C4 at the root of the two-leaf instance
`[1,1,1,1]/[2,2]`. -/
theorem feasible_ratio_sum_capacity_witness :
    ((List.range (numReagents opsTargets)).map
        (opsAssignment.ratio 0 (0, 0))).sum =
      pValueOf opsTargets 0 (0, 0) *
        boolVal (opsAssignment.isActive 0 (0, 0)) ∧
    opsAssignment.totalInput 0 (0, 0) =
      (factorsOf opsTargets 0).getD 0 0 ∧
    opsAssignment.isActive 0 (0, 0) = true :=
  ⟨(feasible_ratio_sum_capacity cfgDefault opsTargets
      ObjectiveMode.operations opsAssignment (by decide)
      (0, (0, 0)) (by decide)).1,
   ((feasible_ratio_sum_capacity cfgDefault opsTargets
      ObjectiveMode.operations opsAssignment (by decide)
      (0, (0, 0)) (by decide)).2.2 rfl).1,
   ((feasible_ratio_sum_capacity cfgDefault opsTargets
      ObjectiveMode.operations opsAssignment (by decide)
      (0, (0, 0)) (by decide)).2.2 rfl).2⟩

/-- Claim C9: in every feasible assignment, an active non-root node has
outgoing-transfer sum at least 1, and an inactive non-root node has all its
outgoing transfer variables equal to 0
(engine.py `_set_activity_constraints`). -/
theorem transfer_source_activity (cfg : RunConfig)
    (targets : TargetsConfig) (mode : ObjectiveMode) (sigma : Assignment)
    (h : feasB cfg targets mode sigma = true) :
    ∀ n ∈ allNodes targets, 0 < n.2.1 →
      (sigma.isActive n.1 n.2 = true →
        1 ≤ outgoingSum cfg targets sigma n) ∧
      (sigma.isActive n.1 n.2 = false →
        ∀ dst ∈ allNodes targets,
          (potential_sources cfg targets dst).contains n = true →
          sigma.w n dst = 0) := by
  intro n hn hl
  have hcore : feasCoreB cfg targets sigma = true :=
    ((Bool.and_eq_true _ _).mp (by unfold feasB at h; exact h)).1
  unfold feasCoreB at hcore
  have hall := ((Bool.and_eq_true _ _).mp hcore).2
  have hnode := List.all_eq_true.mp hall n hn
  unfold nodeOK at hnode
  simp only [Bool.and_eq_true] at hnode
  obtain ⟨⟨⟨⟨⟨⟨⟨hb, hcons⟩, hconc⟩, hrs⟩, hlf⟩, hcap⟩, hact⟩, hwd⟩ :=
    hnode
  simp only [activityOK] at hact
  rw [if_neg (by omega)] at hact
  constructor
  · intro ha
    rw [ha] at hact
    simpa using hact
  · intro ha dst hdst hcont
    rw [ha] at hact
    simp only [Bool.false_eq_true, if_false, beq_iff_eq] at hact
    unfold outgoingSum at hact
    rw [List.sum_eq_zero_iff] at hact
    refine hact _ (List.mem_map.mpr ⟨dst, ?_, rfl⟩)
    exact List.mem_filter.mpr ⟨hdst, hcont⟩

/-- Witness for C9: in the feasible assignment `lpAssignment` on
`lpTargets`, the inactive node `(1,0)` sends nothing to the root. -/
theorem transfer_source_activity_witness :
    lpAssignment.w (0, (1, 0)) (0, (0, 0)) = 0 :=
  (transfer_source_activity cfgDefault lpTargets ObjectiveMode.waste
      lpAssignment (by decide) (0, (1, 0)) (by decide) (by decide)).2
    (by decide) (0, (0, 0)) (by decide) (by decide)

/-! ## The concentration equation: LCM-scaled form vs simpler form (C7)

For one sink and one reagent, a source contributes the triple
`(p_src, w, r)` (source P-value, transfer volume, source ratio).  The first
equation is the one `_set_concentration_constraints` emits (with every
`AddMultiplicationEquality` auxiliary replaced by its defining product
`w * r`); the second is modelled from the spec's words
(`f_dst·Ratio_dst = P_dst·Reagent_dst + Σ (P_dst/P_src)·Ratio_src·W_src`). -/

/-- `C`: the LCM of all source P-values and the sink's P-value, as the
encoder computes it. -/
def concScale (pdst : Nat) (srcs : List (Nat × Nat × Nat)) : Nat :=
  lcmList ((srcs.map (·.1)) ++ [pdst])

/-- The emitted LCM-scaled concentration equation
(engine.py:256-341). -/
def lcmConcentrationEq (fdst pdst rdst rgdst : Nat)
    (srcs : List (Nat × Nat × Nat)) : Prop :=
  fdst * rdst * (concScale pdst srcs / pdst) =
    rgdst * concScale pdst srcs +
    (srcs.map (fun s =>
      (s.2.1 * s.2.2) * (concScale pdst srcs / s.1))).sum

/-- Modelled from the spec: the sufficient simpler form
`f_dst·Ratio_dst[t] = P_dst·Reagent_dst[t] + Σ (P_dst/P_src)·Ratio_src[t]·W_src`. -/
def simpleConcentrationEq (fdst pdst rdst rgdst : Nat)
    (srcs : List (Nat × Nat × Nat)) : Prop :=
  fdst * rdst = pdst * rgdst +
    (srcs.map (fun s => (pdst / s.1) * (s.2.2 * s.2.1))).sum

/-- Claim C7: under the encoder's standing facts — positive P-values,
`f_dst ∣ P_dst` (from the P-value recursion) and the admissibility test
`(P_dst / f_dst) % P_src = 0` for every source — an assignment satisfies
the LCM-scaled equation iff it satisfies the simpler form. -/
theorem lcm_simple_concentration_equiv (fdst pdst rdst rgdst : Nat)
    (srcs : List (Nat × Nat × Nat)) (hf : 0 < fdst) (hp : 0 < pdst)
    (hfd : fdst ∣ pdst)
    (hsrc : ∀ s ∈ srcs, 0 < s.1 ∧ (pdst / fdst) % s.1 = 0) :
    lcmConcentrationEq fdst pdst rdst rgdst srcs ↔
      simpleConcentrationEq fdst pdst rdst rgdst srcs := by
  have hsd : ∀ s ∈ srcs, s.1 ∣ pdst := by
    intro s hs
    have h1 : s.1 ∣ pdst / fdst :=
      Nat.dvd_of_mod_eq_zero (hsrc s hs).2
    exact h1.trans (Nat.div_dvd_of_dvd hfd)
  have hCdvd : pdst ∣ concScale pdst srcs :=
    dvd_lcmList (List.mem_append_right _ (List.mem_singleton.mpr rfl))
  have hCpos : 0 < concScale pdst srcs := by
    apply lcmList_pos
    intro x hx
    rcases List.mem_append.mp hx with h1 | h1
    · obtain ⟨s, hs, rfl⟩ := List.mem_map.mp h1
      exact (hsrc s hs).1
    · rw [List.mem_singleton.mp h1]
      exact hp
  set a := concScale pdst srcs / pdst with ha
  have haeq : pdst * a = concScale pdst srcs := Nat.mul_div_cancel' hCdvd
  have hapos : 0 < a := by
    rcases Nat.eq_zero_or_pos a with h0 | h0
    · rw [h0, Nat.mul_zero] at haeq
      omega
    · exact h0
  have hscale : ∀ s ∈ srcs,
      concScale pdst srcs / s.1 = (pdst / s.1) * a := by
    intro s hs
    have hq : s.1 * (pdst / s.1) = pdst := Nat.mul_div_cancel' (hsd s hs)
    have h2 : concScale pdst srcs = s.1 * ((pdst / s.1) * a) := by
      rw [← haeq, ← Nat.mul_assoc, hq]
    calc concScale pdst srcs / s.1
        = s.1 * ((pdst / s.1) * a) / s.1 := by conv_lhs => rw [h2]
      _ = (pdst / s.1) * a := Nat.mul_div_cancel_left _ (hsrc s hs).1
  have hmap : srcs.map (fun s =>
      (s.2.1 * s.2.2) * (concScale pdst srcs / s.1)) =
      srcs.map (fun s => ((pdst / s.1) * (s.2.2 * s.2.1)) * a) := by
    apply List.map_congr_left
    intro s hs
    rw [hscale s hs]
    ring
  unfold lcmConcentrationEq simpleConcentrationEq
  rw [← ha, hmap, List.sum_map_mul_right, ← haeq]
  constructor
  · intro h
    apply Nat.eq_of_mul_eq_mul_right hapos
    calc fdst * rdst * a = rgdst * (pdst * a) +
        (srcs.map (fun s => (pdst / s.1) * (s.2.2 * s.2.1))).sum * a := h
      _ = (pdst * rgdst +
        (srcs.map (fun s => (pdst / s.1) * (s.2.2 * s.2.1))).sum) * a := by
        ring
  · intro h
    calc fdst * rdst * a
        = (pdst * rgdst +
          (srcs.map (fun s => (pdst / s.1) * (s.2.2 * s.2.1))).sum) * a :=
          by rw [h]
      _ = rgdst * (pdst * a) +
          (srcs.map (fun s => (pdst / s.1) * (s.2.2 * s.2.1))).sum * a :=
          by ring

/-- Witness for C7 at `f_dst = 2`, `P_dst = 12`, sources
`(3, w=1, r=2)` and `(6, w=1, r=3)`: both forms hold at
`Ratio_dst = 7`, `Reagent_dst = 0`. -/
theorem lcm_simple_concentration_equiv_witness :
    (lcmConcentrationEq 2 12 7 0 [(3, 1, 2), (6, 1, 3)] ↔
      simpleConcentrationEq 2 12 7 0 [(3, 1, 2), (6, 1, 3)]) ∧
    simpleConcentrationEq 2 12 7 0 [(3, 1, 2), (6, 1, 3)] :=
  ⟨lcm_simple_concentration_equiv 2 12 7 0 [(3, 1, 2), (6, 1, 3)]
      (by decide) (by decide) (by decide) (by decide),
    by unfold simpleConcentrationEq; decide⟩

/-! ## The legacy encoder (core/or_tools_solver.py)

The runner stack `runners/base_runner.py` drives this older encoder.  It
differs from `core/solver/engine.py` in the concentration scaling
(`p_dst // p_src`, product auxiliaries bounded by `MAX_PRODUCT_BOUND =
50000`), an unconditional ratio-sum `Σ Ratio = P`, reified
`TotalInput > 0 ⇔ IsActive` capacity constraints, `IsUsed` indicator
variables, no waste-mode hint — and it does emit a symmetry-breaking
ordering `TotalInput[k] ≥ TotalInput[k+1]` within each level
(`_set_symmetry_breaking_constraints`, lines 400-421). -/

structure LegacyAssignment where
  ratio : Nat → NodeId → Nat → Nat
  reagent : Nat → NodeId → Nat → Nat
  w : Nat × NodeId → Nat × NodeId → Nat
  totalInput : Nat → NodeId → Nat
  isActive : Nat → NodeId → Bool
  isUsed : Nat → NodeId → Bool
  waste : Nat → NodeId → Nat

def legacyOutgoingSum (cfg : RunConfig) (targets : TargetsConfig)
    (sigma : LegacyAssignment) (n : Nat × NodeId) : Nat :=
  (((allNodes targets).filter
      (fun dst => (potential_sources cfg targets dst).contains n)).map
    (fun dst => sigma.w n dst)).sum

/-- All constraints the legacy encoder emits for one node: variable
domains, conservation, the unscaled concentration equation with
`scale = p_dst // p_src` and `prod ≤ 50000`, the unconditional ratio sum,
leaf identity, the reified capacity constraints, the `IsUsed` activity
block, the symmetry-breaking `TotalInput[k] ≥ TotalInput[k+1]` (when node
`k+1` exists), and the waste definition. -/
def legacyNodeOK (cfg : RunConfig) (targets : TargetsConfig)
    (sigma : LegacyAssignment) (n : Nat × NodeId) : Bool :=
  let p := pValueOf targets n.1 n.2
  let f := (factorsOf targets n.1).getD n.2.1 0
  let T := numReagents targets
  let srcs := sourcesSeq cfg targets n
  ((List.range T).all fun t => sigma.ratio n.1 n.2 t ≤ p) &&
  ((List.range T).all fun t =>
    sigma.reagent n.1 n.2 t ≤ Nat.max 0 (f - 1)) &&
  (srcs.all fun s => sigma.w s n ≤ sharingBound cfg f) &&
  (sigma.totalInput n.1 n.2 ≤ f) &&
  (if 0 < n.2.1 then sigma.waste n.1 n.2 ≤ f else true) &&
  (sigma.totalInput n.1 n.2 ==
    ((List.range T).map (sigma.reagent n.1 n.2)).sum +
    (srcs.map (fun s => sigma.w s n)).sum) &&
  ((List.range T).all fun t =>
    (srcs.all fun s =>
      sigma.ratio s.1 s.2 t * sigma.w s n ≤ 50000) &&
    (f * sigma.ratio n.1 n.2 t ==
      p * sigma.reagent n.1 n.2 t +
      (srcs.map fun s =>
        (sigma.ratio s.1 s.2 t * sigma.w s n) *
          (p / pValueOf targets s.1 s.2)).sum)) &&
  (((List.range T).map (sigma.ratio n.1 n.2)).sum == p) &&
  (if p = f then
    (List.range T).all fun t =>
      sigma.ratio n.1 n.2 t == sigma.reagent n.1 n.2 t
   else true) &&
  (if sigma.isActive n.1 n.2 then decide (0 < sigma.totalInput n.1 n.2)
   else sigma.totalInput n.1 n.2 == 0) &&
  (if n.2.1 = 0 then
    (sigma.totalInput n.1 n.2 == f) && (sigma.isActive n.1 n.2 == true)
   else
    (if sigma.isActive n.1 n.2 then sigma.totalInput n.1 n.2 == f
     else sigma.totalInput n.1 n.2 == 0)) &&
  (if 0 < n.2.1 then
    (legacyOutgoingSum cfg targets sigma n ≤ f) &&
    (if sigma.isUsed n.1 n.2 then
      decide (1 ≤ legacyOutgoingSum cfg targets sigma n)
     else legacyOutgoingSum cfg targets sigma n == 0) &&
    (!(sigma.isActive n.1 n.2) || sigma.isUsed n.1 n.2)
   else true) &&
  (if hasNode targets n.1 (n.2.1, n.2.2 + 1) then
    decide (sigma.totalInput n.1 (n.2.1, n.2.2 + 1) ≤
      sigma.totalInput n.1 n.2)
   else true) &&
  (if 0 < n.2.1 then
    sigma.waste n.1 n.2 + legacyOutgoingSum cfg targets sigma n ==
      sigma.totalInput n.1 n.2
   else true)

def legacyInitialOK (targets : TargetsConfig) (sigma : LegacyAssignment) :
    Bool :=
  (List.range targets.length).all fun m =>
    if hasNode targets m (0, 0) then
      (List.range (numReagents targets)).all fun t =>
        sigma.ratio m (0, 0) t == (targets.getD m ([], [])).1.getD t 0
    else true

/-- The legacy encoder's emitted system (both objective modes add no
further constraint). -/
def legacyFeasB (cfg : RunConfig) (targets : TargetsConfig)
    (sigma : LegacyAssignment) : Bool :=
  legacyInitialOK targets sigma &&
    (allNodes targets).all (legacyNodeOK cfg targets sigma)

theorem hasNode_mem_allNodes {targets : TargetsConfig} {m : Nat}
    {id : NodeId} (hm : m < targets.length)
    (h : hasNode targets m id = true) : (m, id) ∈ allNodes targets := by
  unfold hasNode at h
  obtain ⟨e, he, heq⟩ := List.any_eq_true.mp h
  have : e.1 = id := by simpa using heq
  subst this
  obtain ⟨eid, ech⟩ := e
  exact mem_allNodes hm he

theorem mem_allNodes_lt {targets : TargetsConfig} {n : Nat × NodeId}
    (hn : n ∈ allNodes targets) : n.1 < targets.length := by
  unfold allNodes at hn
  obtain ⟨m, hm, hmem⟩ := List.mem_flatMap.mp hn
  obtain ⟨e, _, rfl⟩ := List.mem_map.mp hmem
  exact List.mem_range.mp hm

/-- Claim C2 as amended: the legacy encoder (core/or_tools_solver.py)
orders `TotalInput[k] ≥ TotalInput[k+1]` within each level, and its
reified capacity constraints then force `IsActive[k] ≥ IsActive[k+1]` in
every feasible assignment; the current engine encoder
(core/solver/engine.py) emits no symmetry-breaking constraint. -/
theorem legacy_left_packed (cfg : RunConfig) (targets : TargetsConfig)
    (sigma : LegacyAssignment)
    (h : legacyFeasB cfg targets sigma = true) :
    ∀ n ∈ allNodes targets,
      hasNode targets n.1 (n.2.1, n.2.2 + 1) = true →
      sigma.isActive n.1 (n.2.1, n.2.2 + 1) = true →
      sigma.isActive n.1 n.2 = true := by
  intro n hn hnext hact1
  have hm : n.1 < targets.length := mem_allNodes_lt hn
  have hall :=
    ((Bool.and_eq_true _ _).mp (by unfold legacyFeasB at h; exact h)).2
  have hnode := List.all_eq_true.mp hall n hn
  have hnode2 := List.all_eq_true.mp hall (n.1, (n.2.1, n.2.2 + 1))
    (hasNode_mem_allNodes hm hnext)
  unfold legacyNodeOK at hnode hnode2
  simp only [Bool.and_eq_true] at hnode hnode2
  obtain ⟨⟨h1to13, h14⟩, hW⟩ := And.intro hnode hnode
  clear hW h14
  obtain ⟨h1to12, h13⟩ := h1to13
  obtain ⟨h1to11, h12⟩ := h1to12
  obtain ⟨h1to10, h11⟩ := h1to11
  obtain ⟨h1to9, h10⟩ := h1to10
  clear h1to9 h11 h12
  obtain ⟨⟨g1to13, g14⟩, gW⟩ := And.intro hnode2 hnode2
  clear gW g14
  obtain ⟨g1to12, g13⟩ := g1to13
  obtain ⟨g1to11, g12⟩ := g1to12
  obtain ⟨g1to10, g11⟩ := g1to11
  obtain ⟨g1to9, g10⟩ := g1to10
  clear g1to9 g11 g12 g13
  rw [hact1] at g10
  simp only [if_true] at g10
  have hpos2 : 0 < sigma.totalInput n.1 (n.2.1, n.2.2 + 1) := by
    simpa using g10
  rw [hnext] at h13
  simp only [if_true, decide_eq_true_eq] at h13
  cases hA : sigma.isActive n.1 n.2 with
  | true => rfl
  | false =>
    rw [hA] at h10
    simp only [Bool.false_eq_true, if_false, beq_iff_eq] at h10
    omega

/-- A feasible assignment for the legacy system on `opsTargets`: every
node active, each leaf feeding the root one unit. -/
def legacyOpsAssignment : LegacyAssignment where
  ratio := fun _ id t =>
    if id = ((0 : Nat), (0 : Nat)) then [1, 1, 1, 1].getD t 0
    else if id = (1, 0) then [1, 1, 0, 0].getD t 0
    else if id = (1, 1) then [0, 0, 1, 1].getD t 0
    else 0
  reagent := fun _ id t =>
    if id = ((1 : Nat), (0 : Nat)) then [1, 1, 0, 0].getD t 0
    else if id = (1, 1) then [0, 0, 1, 1].getD t 0
    else 0
  w := fun s d =>
    if s = ((0 : Nat), ((1 : Nat), (0 : Nat))) ∧ d = (0, (0, 0)) then 1
    else if s = (0, (1, 1)) ∧ d = (0, (0, 0)) then 1
    else 0
  totalInput := fun _ _ => 2
  isActive := fun _ _ => true
  isUsed := fun _ _ => true
  waste := fun _ id =>
    if id = ((1 : Nat), (0 : Nat)) then 1
    else if id = (1, 1) then 1 else 0

/-- Witness for the amended C2: `legacyOpsAssignment` satisfies the legacy
system on `opsTargets`, and applying the ordering theorem at the level-1
pair yields `IsActive[1,0] = 1`. -/
theorem legacy_left_packed_witness :
    legacyFeasB cfgDefault opsTargets legacyOpsAssignment = true ∧
    legacyOpsAssignment.isActive 0 (1, 0) = true :=
  ⟨by decide,
    legacy_left_packed cfgDefault opsTargets legacyOpsAssignment
      (by decide) (0, (1, 0)) (by decide) (by decide) (by decide)⟩

end MTWM
